import Mathlib

/-!
Verification of the stockr option-pricing core.

The development shallowly embeds the three pricing models and the model
comparator of the stockr repository over the real numbers:

* `black_scholes_merton`   — src/stockr/models/black_scholes.py
* `bates_simplified`       — src/stockr/models/bates.py
* `binomial_option_price`  — src/stockr/models/binomial.py
* `applyBatesFallback` / `compareModels` — the sanity-fallback block of
  `get_options_data` in src/stockr/analysis/options.py

The standard normal CDF (scipy's `norm.cdf`) is an external library
dependency of the code, so every pricer that uses it is parametrised by an
arbitrary function `cdf : ℝ → ℝ`.  Python floats are modelled as real
numbers.  Definitions marked "Modelled from the spec" transcribe the
specification's description and exist only to be compared against the
definitions transcribed from the code.
-/

open scoped Classical

namespace Stockr

/-- Model of Python's `str.lower()` on the option-type strings:
lower-case every character. -/
def lowercase (s : String) : String := ⟨s.data.map Char.toLower⟩

lemma lc_call : lowercase ("call") = "call" := rfl

lemma lc_put : lowercase ("put") = "put" := rfl

/-- Source `black_scholes_merton` (src/stockr/models/black_scholes.py,
lines 25-38): the volatility is divided by 100 unconditionally, then the
d1/d2 closed form is evaluated and dispatched on
`option_type.lower() == "call"`. -/
noncomputable def black_scholes_merton (cdf : ℝ → ℝ) (S K T r sigma : ℝ)
    (option_type : String) : ℝ :=
  let sigma := sigma / 100
  let d1 := (Real.log (S / K) + (r + 0.5 * sigma ^ 2) * T) / (sigma * Real.sqrt T)
  let d2 := d1 - sigma * Real.sqrt T
  if lowercase option_type = "call" then
    S * cdf d1 - K * Real.exp (-r * T) * cdf d2
  else
    K * Real.exp (-r * T) * cdf (-d2) - S * cdf (-d1)

/-- Modelled from the spec (§3): the magnitude heuristic for the volatility
unit — divide by 100 exactly when the value is in percentage-points form
(`> 1`), leave decimal form (`≤ 1`) unchanged. -/
noncomputable def specNormalizeVol (sigma : ℝ) : ℝ :=
  if sigma > 1 then sigma / 100 else sigma

/-- Modelled from the spec (§4.1): the closed-form analytic price at an
already-normalized (decimal) volatility, exactly as displayed in the spec. -/
noncomputable def specAnalyticFormula (cdf : ℝ → ℝ) (S K T r sigma : ℝ)
    (kind : String) : ℝ :=
  let d1 := (Real.log (S / K) + (r + 0.5 * sigma ^ 2) * T) / (sigma * Real.sqrt T)
  let d2 := d1 - sigma * Real.sqrt T
  if lowercase kind = "call" then
    S * cdf d1 - K * Real.exp (-r * T) * cdf d2
  else
    K * Real.exp (-r * T) * cdf (-d2) - S * cdf (-d1)

/-- Source bates.py line 48: the jump-compensated drift
`adjusted_drift = r - lambda_param * (exp(mu_j + 0.5*sigma_j**2) - 1)`. -/
noncomputable def driftAdjusted (r lambda_param mu_j sigma_j : ℝ) : ℝ :=
  r - lambda_param * (Real.exp (mu_j + 0.5 * sigma_j ^ 2) - 1)

/-- Source `bates_simplified` loop body (src/stockr/models/bates.py, lines
51-75), for a single jump count `n` and an already-normalized volatility:
the Poisson weight (0 when below the 1e-10 cutoff, mirroring `continue`),
the jump-adjusted volatility, spot and drift, and the per-term analytic
price.  Note that the drift `adjusted_drift` appears in `d1` while the
strike is discounted with the raw input rate `r` (lines 70 and 72). -/
noncomputable def batesMixtureTerm (cdf : ℝ → ℝ)
    (S K T r sigma lambda_param mu_j sigma_j : ℝ) (option_type : String)
    (n : ℕ) : ℝ :=
  let adjusted_drift := driftAdjusted r lambda_param mu_j sigma_j
  let jump_prob := (lambda_param * T) ^ n * Real.exp (-lambda_param * T) /
    (Nat.factorial n : ℝ)
  if jump_prob < 1e-10 then 0 else
  let adjusted_sigma := Real.sqrt (sigma ^ 2 + (n : ℝ) * sigma_j ^ 2 / T)
  let adjusted_S := S * Real.exp ((n : ℝ) * mu_j)
  let d1 := (Real.log (adjusted_S / K) +
    (adjusted_drift + 0.5 * adjusted_sigma ^ 2) * T) /
    (adjusted_sigma * Real.sqrt T)
  let d2 := d1 - adjusted_sigma * Real.sqrt T
  let bs_price := if lowercase option_type = "call" then
      adjusted_S * cdf d1 - K * Real.exp (-r * T) * cdf d2
    else
      K * Real.exp (-r * T) * cdf (-d2) - adjusted_S * cdf (-d1)
  jump_prob * bs_price

/-- Source `bates_simplified` (src/stockr/models/bates.py, lines 37-77):
normalize the volatility by the magnitude heuristic, then sum the
`max_jumps = 10` Poisson-weighted mixture terms. -/
noncomputable def bates_simplified (cdf : ℝ → ℝ) (S K T r sigma : ℝ)
    (lambda_param mu_j sigma_j : ℝ) (option_type : String) : ℝ :=
  let sigma := if sigma > 1 then sigma / 100 else sigma
  (Finset.range 10).sum
    (batesMixtureTerm cdf S K T r sigma lambda_param mu_j sigma_j option_type)

/-- Source `bates_approximation` (src/stockr/models/bates.py, lines 80-112):
the default jump parameters `lambda = 2.0, mu_j = -0.02, sigma_j = 0.05`. -/
noncomputable def bates_approximation (cdf : ℝ → ℝ) (S K T r sigma : ℝ)
    (option_type : String) : ℝ :=
  bates_simplified cdf S K T r sigma 2.0 (-0.02) 0.05 option_type

/-- Modelled from the spec (§4.3 display together with the §4.1 analytic
formula): one mixture term of the jump model, with an explicit choice of
the rate used for the drift inside `d1` and of the rate used in the
discount factor applied to the strike.  The spec demands both to be
`drift_adj`; the comparison theorems below settle which rates the code
actually uses. -/
noncomputable def specMixtureTermWith (cdf : ℝ → ℝ)
    (S K T driftRate discountRate sigma lambda_param mu_j sigma_j : ℝ)
    (kind : String) (n : ℕ) : ℝ :=
  let jump_prob := (lambda_param * T) ^ n * Real.exp (-lambda_param * T) /
    (Nat.factorial n : ℝ)
  if jump_prob < 1e-10 then 0 else
  let sigma_n := Real.sqrt (sigma ^ 2 + (n : ℝ) * sigma_j ^ 2 / T)
  let S_n := S * Real.exp ((n : ℝ) * mu_j)
  let d1 := (Real.log (S_n / K) + (driftRate + 0.5 * sigma_n ^ 2) * T) /
    (sigma_n * Real.sqrt T)
  let d2 := d1 - sigma_n * Real.sqrt T
  let price := if lowercase kind = "call" then
      S_n * cdf d1 - K * Real.exp (-discountRate * T) * cdf d2
    else
      K * Real.exp (-discountRate * T) * cdf (-d2) - S_n * cdf (-d1)
  jump_prob * price

/- ------------------------------------------------------------------ -/
/- Lattice pricer (src/stockr/models/binomial.py)                      -/
/- ------------------------------------------------------------------ -/

/-- Source binomial.py line 41: the up factor `u = exp(sigma * sqrt(dt))`. -/
noncomputable def binomU (sigma dt : ℝ) : ℝ := Real.exp (sigma * Real.sqrt dt)

/-- Source binomial.py line 42: the down factor `d = 1 / u`. -/
noncomputable def binomD (sigma dt : ℝ) : ℝ := 1 / binomU sigma dt

/-- Source binomial.py line 46: `a = exp((r - dividend_yield) * dt)`. -/
noncomputable def binomA (r dividend_yield dt : ℝ) : ℝ :=
  Real.exp ((r - dividend_yield) * dt)

/-- Source binomial.py line 47: the risk-neutral probability
`p = (a - d) / (u - d)`. -/
noncomputable def binomP (sigma r dividend_yield dt : ℝ) : ℝ :=
  (binomA r dividend_yield dt - binomD sigma dt) /
    (binomU sigma dt - binomD sigma dt)

/-- Source binomial.py line 50: the per-step discount factor
`df = exp(-r * dt)`. -/
noncomputable def binomDf (r dt : ℝ) : ℝ := Real.exp (-r * dt)

/-- Source binomial.py lines 66-80: the body of the backward-induction
inner loop at step `i`, node `j`, reading the two option values
`vj = option_values[j]` and `vj1 = option_values[j+1]`. -/
noncomputable def binomCombine (S K u d p df : ℝ) (option_type : String)
    (american : Bool) (i j : ℕ) (vj vj1 : ℝ) : ℝ :=
  let asset_price := S * u ^ (i - j) * d ^ j
  let option_value := df * (p * vj + (1 - p) * vj1)
  if american then
    let exercise_value := if lowercase option_type = "call" then
        max 0 (asset_price - K) else max 0 (K - asset_price)
    max option_value exercise_value
  else option_value

/-- Source binomial.py line 65: the inner loop `for j in range(i + 1)`,
performed as the in-place writes the code does — the write at index `j`
happens after the reads of indices `j` and `j + 1`.  `innerLoop ... i m V`
is the state of `option_values` after the writes `j = 0, ..., m - 1` of
the pass at step `i`. -/
noncomputable def innerLoop (S K u d p df : ℝ) (ot : String) (am : Bool)
    (i : ℕ) : ℕ → (ℕ → ℝ) → (ℕ → ℝ)
  | 0, V => V
  | m + 1, V =>
    let W := innerLoop S K u d p df ot am i m V
    Function.update W m (binomCombine S K u d p df ot am i m (W m) (W (m + 1)))

/-- Source binomial.py line 64: the outer loop
`for i in range(steps - 1, -1, -1)`; `backwardLoop ... n V` runs the
passes at steps `n - 1` down to `0` on the value state `V`. -/
noncomputable def backwardLoop (S K u d p df : ℝ) (ot : String) (am : Bool) :
    ℕ → (ℕ → ℝ) → (ℕ → ℝ)
  | 0, V => V
  | i + 1, V =>
    backwardLoop S K u d p df ot am i
      (innerLoop S K u d p df ot am i (i + 1) V)

/-- Source `binomial_option_price` (src/stockr/models/binomial.py, lines
13-83): normalize the volatility by the magnitude heuristic, build the CRR
parameters, fill the terminal payoffs and run the backward induction; the
result is the value at the root node. -/
noncomputable def binomial_option_price (S K T r sigma : ℝ)
    (option_type : String) (steps : ℕ) (american : Bool)
    (dividend_yield : ℝ) : ℝ :=
  let sigma := if sigma > 1 then sigma / 100 else sigma
  let dt := T / (steps : ℝ)
  let u := binomU sigma dt
  let d := binomD sigma dt
  let p := binomP sigma r dividend_yield dt
  let df := binomDf r dt
  let prices : ℕ → ℝ := fun i => S * u ^ (steps - i) * d ^ i
  let option_values : ℕ → ℝ := fun i =>
    if lowercase option_type = "call" then max 0 (prices i - K)
    else max 0 (K - prices i)
  backwardLoop S K u d p df option_type american steps option_values 0

/-- Modelled from the spec (§4.2): one step of the reference backward
induction — continuation value `discount·(p·V[j] + (1-p)·V[j+1])`,
replaced by `max(continuation, intrinsic-at-node)` when `american`. -/
noncomputable def crrLevel (S K u d p discount : ℝ) (kind : String)
    (american : Bool) (i : ℕ) (V : ℕ → ℝ) : ℕ → ℝ :=
  fun j =>
    let continuation := discount * (p * V j + (1 - p) * V (j + 1))
    if american then
      max continuation
        (if lowercase kind = "call" then
          max 0 (S * u ^ (i - j) * d ^ j - K)
         else max 0 (K - S * u ^ (i - j) * d ^ j))
    else continuation

/-- Modelled from the spec (§4.2): the reference backward induction for
step `i` from `steps - 1` down to `0`. -/
noncomputable def crrInduct (S K u d p discount : ℝ) (kind : String)
    (american : Bool) : ℕ → (ℕ → ℝ) → (ℕ → ℝ)
  | 0, V => V
  | i + 1, V =>
    crrInduct S K u d p discount kind american i
      (crrLevel S K u d p discount kind american i V)

/-- Modelled from the spec (§4.2): the Cox-Ross-Rubinstein reference
price.  The volatility is consumed as given — the spec states the Lattice
Pricer does NOT re-normalize. -/
noncomputable def crrReferencePrice (S K T r sigma : ℝ) (kind : String)
    (steps : ℕ) (american : Bool) (q : ℝ) : ℝ :=
  let dt := T / (steps : ℝ)
  let u := Real.exp (sigma * Real.sqrt dt)
  let d := 1 / u
  let p := (Real.exp ((r - q) * dt) - d) / (u - d)
  let discount := Real.exp (-r * dt)
  let terminal : ℕ → ℝ := fun i =>
    if lowercase kind = "call" then max 0 (S * u ^ (steps - i) * d ^ i - K)
    else max 0 (K - S * u ^ (steps - i) * d ^ i)
  crrInduct S K u d p discount kind american steps terminal 0

/- ------------------------------------------------------------------ -/
/- Comparator (src/stockr/analysis/options.py)                         -/
/- ------------------------------------------------------------------ -/

/-- One warning entry appended by the comparator's sanity fallback: the
leg it concerns and the price value interpolated into the message
`"Bates {leg} price too far from BSM: {price}"`. -/
structure BatesWarning where
  leg : String
  reportedPrice : ℝ

/-- The comparator's outputs for one evaluation: the three model prices
per leg and the accumulated warning strings. -/
structure ComparisonResult where
  analyticCall : ℝ
  analyticPut : ℝ
  latticeCall : ℝ
  latticePut : ℝ
  jumpCall : ℝ
  jumpPut : ℝ
  warnings : List BatesWarning

/-- Source options.py lines 151-159 (one leg of the sanity check): if the
Bates price deviates from the BSM price by more than 100% of the BSM
price, or is non-finite, overwrite the Bates price with the BSM price and
append a warning — whose interpolated price is read from the variable
after the overwrite, exactly as the Python code does. -/
noncomputable def applyBatesFallback (leg : String)
    (bsm_price bates_price : ℝ) (bates_finite : Bool)
    (errors : List BatesWarning) : ℝ × List BatesWarning :=
  if |bates_price - bsm_price| > bsm_price ∨ bates_finite = false then
    let bates_price := bsm_price
    (bates_price, errors ++ [⟨leg, bates_price⟩])
  else (bates_price, errors)

/-- Source options.py lines 90-196 (the model-comparison portion of
`get_options_data`, abstracted over the six model prices and the
finiteness of the two Bates prices): run the call-leg check, then the
put-leg check on the accumulated errors, and package the result.  The
binomial (lattice) prices are passed through with no check. -/
noncomputable def compareModels (bsm_call bsm_put bin_call bin_put
    bates_call bates_put : ℝ) (call_finite put_finite : Bool) :
    ComparisonResult :=
  let rc := applyBatesFallback ("call") bsm_call bates_call call_finite []
  let rp := applyBatesFallback ("put") bsm_put bates_put put_finite rc.2
  ⟨bsm_call, bsm_put, bin_call, bin_put, rc.1, rp.1, rp.2⟩

/- ------------------------------------------------------------------ -/
/- Evaluation helpers                                                  -/
/- ------------------------------------------------------------------ -/

lemma log_two_lt_one : Real.log 2 < 1 := by
  have h := Real.log_two_lt_d9
  linarith

lemma exp_neg_one_not_small : ¬ (Real.exp (-1) < 1e-10) := by
  have h1 : Real.exp 1 < 2.7182818286 := Real.exp_one_lt_d9
  have h3 : (0 : ℝ) < Real.exp 1 := Real.exp_pos 1
  have h4 : ((2.7182818286 : ℝ))⁻¹ ≤ (Real.exp 1)⁻¹ :=
    inv_anti₀ h3 (le_of_lt h1)
  rw [Real.exp_neg]
  push_neg
  calc (1e-10 : ℝ) ≤ (2.7182818286 : ℝ)⁻¹ := by norm_num
    _ ≤ (Real.exp 1)⁻¹ := h4

/-- Evaluation of the analytic pricer at the reference point
`S = K = T = 1, r = 0` with the identity function in place of the CDF:
the call price collapses to `d1 - d2`, i.e. the internally used
volatility. -/
lemma bsm_unit_eval (σ : ℝ) :
    black_scholes_merton id 1 1 1 0 σ ("call") = σ / 100 := by
  simp only [black_scholes_merton, lc_call, if_pos rfl, id]
  norm_num [Real.sqrt_one]

lemma specAnalytic_unit_eval (σ : ℝ) :
    specAnalyticFormula id 1 1 1 0 σ ("call") = σ := by
  simp only [specAnalyticFormula, lc_call, if_pos rfl, id]
  norm_num [Real.sqrt_one]

/- ------------------------------------------------------------------ -/
/- Claim C1                                                            -/
/- ------------------------------------------------------------------ -/

/-- Claim C1 (counterexample): the mixture term of `bates_simplified` does
not discount the strike with the jump-adjusted drift.  At
`S = K = T = 1, r = 0, λ = 1, μ_j = log 2, σ_j = 0`, jump count `n = 0`
and the constant-one CDF, the code's term is `0` while the spec's term
(discounting with `drift_adj = -1`) is `exp (-1) * (1 - exp 1) ≠ 0`. -/
theorem bates_term_discount_counterexample :
    batesMixtureTerm (fun _ => 1) 1 1 1 0 1 1 (Real.log 2) 0 ("call") 0 ≠
    specMixtureTermWith (fun _ => 1) 1 1 1
      (driftAdjusted 0 1 (Real.log 2) 0) (driftAdjusted 0 1 (Real.log 2) 0)
      1 1 (Real.log 2) 0 ("call") 0 := by
  have hdrift : driftAdjusted 0 1 (Real.log 2) 0 = -1 := by
    norm_num [driftAdjusted, Real.exp_log]
  have hgate : ¬ ((1 * 1 : ℝ) ^ (0 : ℕ) * Real.exp (-1 * 1) /
      (Nat.factorial 0 : ℝ) < 1e-10) := by
    simpa using exp_neg_one_not_small
  have hL : batesMixtureTerm (fun _ => 1) 1 1 1 0 1 1 (Real.log 2) 0 ("call") 0
      = 0 := by
    simp only [batesMixtureTerm, lc_call, if_pos rfl, if_neg hgate]
    norm_num
  have hR : specMixtureTermWith (fun _ => 1) 1 1 1
      (driftAdjusted 0 1 (Real.log 2) 0) (driftAdjusted 0 1 (Real.log 2) 0)
      1 1 (Real.log 2) 0 ("call") 0
      = Real.exp (-1) * (1 - Real.exp 1) := by
    rw [hdrift]
    simp only [specMixtureTermWith, lc_call, if_pos rfl, if_neg hgate]
    norm_num
  rw [hL, hR]
  intro h
  have h1 : (0 : ℝ) < Real.exp (-1) := Real.exp_pos _
  have h2 : (1 : ℝ) < Real.exp 1 := Real.one_lt_exp_iff.mpr one_pos
  nlinarith

/-- Claim C1 (amended): every mixture term of `bates_simplified` uses the
jump-adjusted drift `drift_adj = r - λ(e^{μ_j + σ_j²/2} - 1)` inside the
`d1`/`d2` drift, but the discount factor applied to the strike uses the
raw input rate `r`, not `drift_adj`. -/
theorem bates_term_drift_and_discount (cdf : ℝ → ℝ)
    (S K T r sigma lambda_param mu_j sigma_j : ℝ) (option_type : String)
    (n : ℕ) :
    batesMixtureTerm cdf S K T r sigma lambda_param mu_j sigma_j option_type n =
    specMixtureTermWith cdf S K T
      (driftAdjusted r lambda_param mu_j sigma_j) r
      sigma lambda_param mu_j sigma_j option_type n := rfl

/- ------------------------------------------------------------------ -/
/- Claim C2                                                            -/
/- ------------------------------------------------------------------ -/

/-- Claim C2 (counterexample): `black_scholes_merton` does not apply the
magnitude heuristic.  At the decimal volatility `σ = 1/2 ≤ 1` with
`S = K = T = 1, r = 0` and the identity CDF, the code divides by 100
anyway and returns `1/200`, while the heuristic-normalized formula
returns `1/2`. -/
theorem bsm_normalization_counterexample :
    black_scholes_merton id 1 1 1 0 (1 / 2) ("call") ≠
    specAnalyticFormula id 1 1 1 0 (specNormalizeVol (1 / 2)) ("call") := by
  have h1 : specNormalizeVol (1 / 2 : ℝ) = 1 / 2 := by
    simp only [specNormalizeVol, if_neg (by norm_num : ¬ ((1:ℝ)/2 > 1))]
  rw [bsm_unit_eval, h1, specAnalytic_unit_eval]
  norm_num

/-- Claim C2 (amended): `black_scholes_merton` divides the volatility by
100 unconditionally — it always assumes percentage-points input, instead
of applying the shared magnitude heuristic. -/
theorem bsm_always_divides_by_100 (cdf : ℝ → ℝ) (S K T r sigma : ℝ)
    (option_type : String) :
    black_scholes_merton cdf S K T r sigma option_type =
    specAnalyticFormula cdf S K T r (sigma / 100) option_type := rfl

/- ------------------------------------------------------------------ -/
/- Claim C5                                                            -/
/- ------------------------------------------------------------------ -/

lemma bates_lambda_zero_term_zero (cdf : ℝ → ℝ) (S K T r σ μj σj : ℝ)
    (ot : String) (b : ℕ) (hb : b ≠ 0) :
    batesMixtureTerm cdf S K T r σ 0 μj σj ot b = 0 := by
  have h : ((0 : ℝ) * T) ^ b * Real.exp (-0 * T) / (Nat.factorial b : ℝ) = 0 := by
    rw [zero_mul, zero_pow hb, zero_mul, zero_div]
  simp only [batesMixtureTerm]
  rw [if_pos (by rw [h]; norm_num)]

/-- With jump intensity `λ = 0` every term of the ten-term mixture except
`n = 0` is skipped by the `1e-10` probability cutoff, so the sum collapses
to the single `n = 0` term (at the internally normalized volatility). -/
lemma bates_lambda_zero (cdf : ℝ → ℝ) (S K T r σ μj σj : ℝ) (ot : String) :
    bates_simplified cdf S K T r σ 0 μj σj ot =
    batesMixtureTerm cdf S K T r (if σ > 1 then σ / 100 else σ) 0 μj σj ot 0 := by
  simp only [bates_simplified]
  exact Finset.sum_eq_single_of_mem 0 (by simp)
    (fun b _ hb => bates_lambda_zero_term_zero cdf S K T r _ μj σj ot b hb)

/-- The `n = 0` mixture term with `λ = 0` is exactly the analytic formula
at the given (already-decimal, nonnegative) volatility. -/
lemma bates_term_zero_eval (cdf : ℝ → ℝ) (S K T r μj σj σd : ℝ)
    (hσd : 0 ≤ σd) (ot : String) :
    batesMixtureTerm cdf S K T r σd 0 μj σj ot 0 =
    specAnalyticFormula cdf S K T r σd ot := by
  norm_num [batesMixtureTerm, specAnalyticFormula, driftAdjusted,
    Real.sqrt_sq hσd]

/-- Claim C5 (counterexample): at the decimal volatility `σ = 1/2` the
jump model with `λ = 0` and the analytic pricer disagree: the jump model
leaves `σ ≤ 1` unchanged while `black_scholes_merton` divides by 100, so
at `S = K = T = 1, r = 0` with the identity CDF the two return `1/2` and
`1/200` respectively. -/
theorem bates_lambda_zero_counterexample :
    bates_simplified id 1 1 1 0 (1 / 2) 0 0 0 ("call") ≠
    black_scholes_merton id 1 1 1 0 (1 / 2) ("call") := by
  have hL : bates_simplified id 1 1 1 0 (1 / 2) 0 0 0 ("call") = 1 / 2 := by
    rw [bates_lambda_zero, if_neg (by norm_num : ¬ ((1:ℝ)/2 > 1)),
      bates_term_zero_eval id 1 1 1 0 0 0 (1/2) (by norm_num) ("call"),
      specAnalytic_unit_eval]
  rw [hL, bsm_unit_eval]
  norm_num

/-- Claim C5 (amended): for a percentage-form volatility `σ > 1` — where
both pricers normalize identically — `bates_simplified` with `λ = 0`
returns exactly the `black_scholes_merton` price for the same
`(S, K, T, r, σ)`, for every CDF, jump-size parameters and option kind. -/
theorem bates_lambda_zero_matches_analytic (cdf : ℝ → ℝ)
    (S K T r σ μj σj : ℝ) (ot : String) (h : σ > 1) :
    bates_simplified cdf S K T r σ 0 μj σj ot =
    black_scholes_merton cdf S K T r σ ot := by
  rw [bates_lambda_zero, if_pos h,
    bates_term_zero_eval cdf S K T r μj σj (σ / 100) (by linarith) ot]
  rfl

/-- Claim C5 (witness): the amended equivalence at the concrete
percentage-form input `σ = 200 > 1`. -/
theorem bates_lambda_zero_matches_analytic_witness :
    (200 : ℝ) > 1 ∧
    bates_simplified id 1 1 1 0 200 0 0 0 ("call") =
      black_scholes_merton id 1 1 1 0 200 ("call") :=
  ⟨by norm_num,
    bates_lambda_zero_matches_analytic id 1 1 1 0 200 0 0 ("call") (by norm_num)⟩

/- ------------------------------------------------------------------ -/
/- Claim C7                                                            -/
/- ------------------------------------------------------------------ -/

lemma parity_core (cdf : ℝ → ℝ) (hcdf : ∀ x, cdf x + cdf (-x) = 1)
    (S c x y : ℝ) :
    (S * cdf x - c * cdf y) - (c * cdf (-y) - S * cdf (-x)) = S - c := by
  have h1 := hcdf x
  have h2 := hcdf y
  linear_combination S * h1 - c * h2

/-- Claim C7: put-call parity for the analytic pricer.  For every input
satisfying the PricingInput invariant and every CDF satisfying the
standard-normal symmetry `Φ(x) + Φ(-x) = 1`, the call price minus the put
price equals `S - K·e^(-rT)`. -/
theorem analytic_put_call_parity (cdf : ℝ → ℝ) (S K T r sigma : ℝ)
    (hcdf : ∀ x, cdf x + cdf (-x) = 1)
    (hS : 0 < S) (hK : 0 < K) (hT : 0 < T) (hsigma : 0 < sigma) :
    black_scholes_merton cdf S K T r sigma ("call") -
      black_scholes_merton cdf S K T r sigma ("put") =
    S - K * Real.exp (-r * T) := by
  simp only [black_scholes_merton, lc_call, lc_put, if_pos rfl,
    if_neg (by decide : ¬ (("put" : String) = "call"))]
  exact parity_core cdf hcdf S (K * Real.exp (-r * T)) _ _

/-- Claim C7 (witness): parity at the concrete point
`S = K = T = 1, r = 0, σ = 50` with the constant-1/2 CDF. -/
theorem analytic_put_call_parity_witness :
    (∀ x : ℝ, (fun _ : ℝ => (1:ℝ)/2) x + (fun _ : ℝ => (1:ℝ)/2) (-x) = 1) ∧
    (0:ℝ) < 1 ∧ (0:ℝ) < 50 ∧
    black_scholes_merton (fun _ => (1:ℝ)/2) 1 1 1 0 50 ("call") -
      black_scholes_merton (fun _ => (1:ℝ)/2) 1 1 1 0 50 ("put") =
    1 - 1 * Real.exp (-0 * 1) :=
  ⟨fun x => by norm_num, by norm_num, by norm_num,
    analytic_put_call_parity (fun _ => (1:ℝ)/2) 1 1 1 0 50
      (fun x => by norm_num) (by norm_num) (by norm_num) (by norm_num)
      (by norm_num)⟩

/- ------------------------------------------------------------------ -/
/- Lattice lemmas                                                      -/
/- ------------------------------------------------------------------ -/

/-- Pointwise characterization of the in-place inner loop: since the write
at index `j` happens before index `j + 1` is read or written, a full or
partial pass acts like a pure map of the old state. -/
lemma innerLoop_apply (S K u d p df : ℝ) (ot : String) (am : Bool) (i : ℕ) :
    ∀ (m : ℕ) (V : ℕ → ℝ) (k : ℕ),
    innerLoop S K u d p df ot am i m V k =
    if k < m then binomCombine S K u d p df ot am i k (V k) (V (k + 1))
    else V k := by
  intro m
  induction m with
  | zero => intro V k; simp [innerLoop]
  | succ m ih =>
    intro V k
    simp only [innerLoop]
    rw [Function.update_apply]
    by_cases hk : k = m
    · subst hk
      rw [if_pos rfl, ih, ih, if_neg (lt_irrefl k), if_neg (by omega),
        if_pos (by omega)]
    · rw [if_neg hk, ih]
      by_cases hkm : k < m
      · rw [if_pos hkm, if_pos (by omega)]
      · rw [if_neg hkm, if_neg (by omega)]

/-- The code's in-place backward induction agrees at the root with the
spec's pure backward induction whenever the two start from value states
that agree on the live indices `0..n`. -/
lemma backward_eq_crr (S K u d p df : ℝ) (ot : String) (am : Bool) :
    ∀ (n : ℕ) (V W : ℕ → ℝ), (∀ k, k ≤ n → V k = W k) →
    backwardLoop S K u d p df ot am n V 0 =
      crrInduct S K u d p df ot am n W 0 := by
  intro n
  induction n with
  | zero => intro V W h; simpa [backwardLoop, crrInduct] using h 0 (le_refl 0)
  | succ i ih =>
    intro V W h
    simp only [backwardLoop, crrInduct]
    apply ih
    intro k hk
    rw [innerLoop_apply, if_pos (by omega)]
    simp only [binomCombine, crrLevel]
    rw [h k (by omega), h (k + 1) (by omega)]

/-- The code's lattice pricer equals the spec's CRR reference evaluated at
the internally normalized volatility. -/
lemma binomial_eq_crr_norm (S K T r sigma : ℝ) (ot : String) (steps : ℕ)
    (am : Bool) (q : ℝ) :
    binomial_option_price S K T r sigma ot steps am q =
    crrReferencePrice S K T r (if sigma > 1 then sigma / 100 else sigma)
      ot steps am q := by
  simp only [binomial_option_price, crrReferencePrice, binomU, binomD,
    binomA, binomP, binomDf]
  exact backward_eq_crr _ _ _ _ _ _ _ _ steps _ _ (fun k _ => rfl)

lemma backwardLoop_zero (S K u d p df : ℝ) (ot : String) (am : Bool)
    (V : ℕ → ℝ) : backwardLoop S K u d p df ot am 0 V = V := rfl

lemma backwardLoop_succ (S K u d p df : ℝ) (ot : String) (am : Bool)
    (n : ℕ) (V : ℕ → ℝ) :
    backwardLoop S K u d p df ot am (n + 1) V =
    backwardLoop S K u d p df ot am n
      (innerLoop S K u d p df ot am n (n + 1) V) := rfl

/-- Closed form of a two-step backward induction at the root. -/
lemma backwardLoop_two (S K u d p df : ℝ) (ot : String) (am : Bool)
    (V : ℕ → ℝ) :
    backwardLoop S K u d p df ot am 2 V 0 =
    binomCombine S K u d p df ot am 0 0
      (binomCombine S K u d p df ot am 1 0 (V 0) (V 1))
      (binomCombine S K u d p df ot am 1 1 (V 1) (V 2)) := by
  rw [show (2 : ℕ) = 1 + 1 from rfl, backwardLoop_succ,
    show (1 : ℕ) = 0 + 1 from rfl, backwardLoop_succ, backwardLoop_zero]
  rw [innerLoop_apply, if_pos (by omega), innerLoop_apply,
    if_pos (by omega), innerLoop_apply, if_pos (by omega)]

/-- Closed form of a one-step backward induction at the root. -/
lemma backwardLoop_one (S K u d p df : ℝ) (ot : String) (am : Bool)
    (V : ℕ → ℝ) :
    backwardLoop S K u d p df ot am 1 V 0 =
    binomCombine S K u d p df ot am 0 0 (V 0) (V 1) := by
  rw [show (1 : ℕ) = 0 + 1 from rfl, backwardLoop_succ, backwardLoop_zero,
    innerLoop_apply, if_pos (by omega)]

lemma crrInduct_zero (S K u d p df : ℝ) (ot : String) (am : Bool)
    (V : ℕ → ℝ) : crrInduct S K u d p df ot am 0 V = V := rfl

lemma crrInduct_succ (S K u d p df : ℝ) (ot : String) (am : Bool)
    (n : ℕ) (V : ℕ → ℝ) :
    crrInduct S K u d p df ot am (n + 1) V =
    crrInduct S K u d p df ot am n
      (crrLevel S K u d p df ot am n V) := rfl

/-- Algebraic identity for a one-step at-the-money call tree with zero
rate: `p (u - 1)` with `d = 1/u` collapses to `(u - 1)/(u + 1)`. -/
lemma ratio_identity (x : ℝ) (hx : 1 < x) :
    (1 - 1 / x) / (x - 1 / x) * (x - 1) = (x - 1) / (x + 1) := by
  have hx0 : x ≠ 0 := by positivity
  have h1 : x - 1 / x ≠ 0 := by
    have h2 : 1 / x < 1 := by
      rw [div_lt_one (by positivity)]
      exact hx
    have h3 : 1 / x < x := lt_trans h2 hx
    intro hcon
    have := sub_eq_zero.mp hcon
    linarith
  have hx1 : x + 1 ≠ 0 := by positivity
  rw [div_mul_eq_mul_div, div_eq_div_iff h1 hx1]
  field_simp
  ring

lemma ratio_lt (x y : ℝ) (hx : 1 < x) (hxy : x < y) :
    (x - 1) / (x + 1) < (y - 1) / (y + 1) := by
  have hx1 : (0:ℝ) < x + 1 := by linarith
  have hy1 : (0:ℝ) < y + 1 := by linarith
  rw [div_lt_div_iff hx1 hy1]
  nlinarith

lemma crrInduct_one (S K u d p df : ℝ) (ot : String) (am : Bool)
    (V : ℕ → ℝ) :
    crrInduct S K u d p df ot am 1 V =
    crrLevel S K u d p df ot am 0 V := rfl

/-- Evaluation of the spec's CRR reference for an at-the-money one-step
european call with `S = K = T = 1` and `r = q = 0`: the root value is
`(e^σ - 1)/(e^σ + 1)`, a strictly increasing function of `σ`. -/
lemma crr_one_step_call (σ : ℝ) (hσ : 0 < σ) :
    crrReferencePrice 1 1 1 0 σ ("call") 1 false 0 =
    (Real.exp σ - 1) / (Real.exp σ + 1) := by
  have hu1 : 1 < Real.exp σ := Real.one_lt_exp_iff.mpr hσ
  have hd1 : 1 / Real.exp σ ≤ 1 := by
    rw [div_le_one (Real.exp_pos σ)]
    linarith
  have hev : Real.exp (σ * Real.sqrt ((1:ℝ) / ((1:ℕ) : ℝ))) = Real.exp σ := by
    norm_num [Real.sqrt_one]
  simp only [crrReferencePrice]
  rw [crrInduct_one]
  simp only [crrLevel, lc_call, eq_self_iff_true, if_true,
    Bool.false_eq_true, if_false]
  rw [hev]
  have hp0 : Real.exp (((0:ℝ) - 0) * ((1:ℝ) / ((1:ℕ) : ℝ))) = 1 := by
    norm_num [Real.exp_zero]
  have hd0 : Real.exp ((-(0:ℝ)) * ((1:ℝ) / ((1:ℕ) : ℝ))) = 1 := by
    norm_num [Real.exp_zero]
  rw [hp0, hd0]
  have e0 : (1:ℝ) * Real.exp σ ^ (1 - 0) * (1 / Real.exp σ) ^ (0:ℕ) - 1 =
      Real.exp σ - 1 := by norm_num
  have e1 : (1:ℝ) * Real.exp σ ^ (1 - 1) * (1 / Real.exp σ) ^ (1:ℕ) - 1 =
      1 / Real.exp σ - 1 := by norm_num
  rw [e0, e1, max_eq_right (by linarith), max_eq_left (by linarith)]
  rw [mul_zero, add_zero, one_mul]
  exact ratio_identity (Real.exp σ) hu1

/- ------------------------------------------------------------------ -/
/- Claim C3                                                            -/
/- ------------------------------------------------------------------ -/

/-- Claim C3 (counterexample): the lattice pricer does re-normalize.  At
the percentage-form volatility `σ = 200 > 1` (one at-the-money european
call step, `S = K = T = 1, r = q = 0`) the code prices the tree built
from `σ = 2` — the CRR reference at the caller's `σ = 200` differs, since
the one-step root value `(e^σ - 1)/(e^σ + 1)` is strictly increasing. -/
theorem binomial_renormalizes_counterexample :
    binomial_option_price 1 1 1 0 200 ("call") 1 false 0 ≠
    crrReferencePrice 1 1 1 0 200 ("call") 1 false 0 := by
  have h1 : binomial_option_price 1 1 1 0 200 ("call") 1 false 0 =
      crrReferencePrice 1 1 1 0 2 ("call") 1 false 0 := by
    rw [binomial_eq_crr_norm]
    norm_num
  rw [h1, crr_one_step_call 2 (by norm_num), crr_one_step_call 200 (by norm_num)]
  have h2 : Real.exp 2 < Real.exp 200 := Real.exp_lt_exp.mpr (by norm_num)
  have h3 : 1 < Real.exp 2 := Real.one_lt_exp_iff.mpr (by norm_num)
  exact ne_of_lt (ratio_lt _ _ h3 h2)

/-- Claim C3 (amended): `binomial_option_price` applies the same
magnitude heuristic as the other pricers — a volatility `σ > 1` is
divided by 100 exactly once before the tree parameters are built, so for
`σ > 1` the code prices the CRR tree at `σ/100`, not at `σ`. -/
theorem binomial_renormalizes_above_one (S K T r sigma q : ℝ)
    (ot : String) (steps : ℕ) (am : Bool) (h : sigma > 1) :
    binomial_option_price S K T r sigma ot steps am q =
    crrReferencePrice S K T r (sigma / 100) ot steps am q := by
  rw [binomial_eq_crr_norm, if_pos h]

/-- Claim C3 (witness): the amended statement at `σ = 200`. -/
theorem binomial_renormalizes_above_one_witness :
    (200 : ℝ) > 1 ∧
    binomial_option_price 1 1 1 0 200 ("call") 1 false 0 =
      crrReferencePrice 1 1 1 0 (200 / 100) ("call") 1 false 0 :=
  ⟨by norm_num,
    binomial_renormalizes_above_one 1 1 1 0 200 0 ("call") 1 false
      (by norm_num)⟩

/- ------------------------------------------------------------------ -/
/- Claim C6                                                            -/
/- ------------------------------------------------------------------ -/

/-- Claim C6 (counterexample): the lattice pricer does not equal the CRR
reference on every valid input — the reference consumes `σ` as given,
while the code first divides `σ = 150 > 1` by 100. -/
theorem lattice_crr_reference_counterexample :
    binomial_option_price 1 1 1 0 150 ("call") 1 false 0 ≠
    crrReferencePrice 1 1 1 0 150 ("call") 1 false 0 := by
  have h1 : binomial_option_price 1 1 1 0 150 ("call") 1 false 0 =
      crrReferencePrice 1 1 1 0 (3 / 2) ("call") 1 false 0 := by
    rw [binomial_eq_crr_norm]
    norm_num
  rw [h1, crr_one_step_call (3 / 2) (by norm_num),
    crr_one_step_call 150 (by norm_num)]
  have h2 : Real.exp (3 / 2) < Real.exp 150 := Real.exp_lt_exp.mpr (by norm_num)
  have h3 : 1 < Real.exp (3 / 2) := Real.one_lt_exp_iff.mpr (by norm_num)
  exact ne_of_lt (ratio_lt _ _ h3 h2)

/-- Claim C6 (amended): for every input with `σ ≤ 1` (the decimal
convention the spec's reference assumes), every step count, both kinds
and both exercise styles, `binomial_option_price` returns exactly the
value of the spec's CRR reference procedure — terminal payoffs
`max(0, ±(price - K))` at `S·u^(steps-i)·d^i`, backward induction with
continuation `discount·(p·V[j] + (1-p)·V[j+1])` and the American
early-exercise max, evaluated at the root. -/
theorem lattice_matches_crr_reference (S K T r sigma q : ℝ)
    (ot : String) (steps : ℕ) (am : Bool) (h : sigma ≤ 1) :
    binomial_option_price S K T r sigma ot steps am q =
    crrReferencePrice S K T r sigma ot steps am q := by
  rw [binomial_eq_crr_norm, if_neg (not_lt.mpr h)]

/-- Claim C6 (witness): the amended statement at the decimal volatility
`σ = 1/2` for a two-step American put. -/
theorem lattice_matches_crr_reference_witness :
    (1 / 2 : ℝ) ≤ 1 ∧
    binomial_option_price 1 1 1 0 (1 / 2) ("put") 2 true 0 =
      crrReferencePrice 1 1 1 0 (1 / 2) ("put") 2 true 0 :=
  ⟨by norm_num,
    lattice_matches_crr_reference 1 1 1 0 (1 / 2) 0 ("put") 2 true
      (by norm_num)⟩

/- ------------------------------------------------------------------ -/
/- Claim C8                                                            -/
/- ------------------------------------------------------------------ -/

/-- Monotonicity of the backward induction: with a nonnegative discount
factor and a risk-neutral probability in `[0, 1]`, the American run
dominates the European run whenever its input values dominate on the live
indices. -/
lemma backward_am_ge_eu (S K u d p df : ℝ) (ot : String)
    (hdf : 0 ≤ df) (hp0 : 0 ≤ p) (hp1 : p ≤ 1) :
    ∀ (n : ℕ) (V W : ℕ → ℝ), (∀ k, k ≤ n → W k ≤ V k) →
    backwardLoop S K u d p df ot false n W 0 ≤
      backwardLoop S K u d p df ot true n V 0 := by
  intro n
  induction n with
  | zero => intro V W h; simpa [backwardLoop] using h 0 (le_refl 0)
  | succ i ih =>
    intro V W h
    simp only [backwardLoop]
    apply ih
    intro k hk
    rw [innerLoop_apply, if_pos (by omega), innerLoop_apply, if_pos (by omega)]
    have h1 : W k ≤ V k := h k (by omega)
    have h2 : W (k + 1) ≤ V (k + 1) := h (k + 1) (by omega)
    simp only [binomCombine, Bool.false_eq_true, if_false, if_true]
    have hcont : df * (p * W k + (1 - p) * W (k + 1)) ≤
        df * (p * V k + (1 - p) * V (k + 1)) := by
      apply mul_le_mul_of_nonneg_left _ hdf
      have g1 := mul_le_mul_of_nonneg_left h1 hp0
      have g2 := mul_le_mul_of_nonneg_left h2
        (by linarith : (0:ℝ) ≤ 1 - p)
      linarith
    exact le_trans hcont (le_max_left _ _)

/-- Claim C8 (counterexample): with a large rate the risk-neutral
probability exceeds 1 and the American put can price strictly below the
European put.  At `S = K = 4, T = 2, r = log 4, σ = log 2, q = 0` and two
steps, the tree has `u = 2, d = 1/2, p = 7/3, df = 1/4`; the European
value at the root is `1/3` while the American value is `0`. -/
theorem lattice_american_put_counterexample :
    binomial_option_price 4 4 2 (Real.log 4) (Real.log 2) ("put") 2 true 0 <
    binomial_option_price 4 4 2 (Real.log 4) (Real.log 2) ("put") 2 false 0 := by
  have hlog2 : ¬ ((Real.log 2) > 1) := not_lt.mpr (le_of_lt log_two_lt_one)
  have hput : ¬ (lowercase ("put") = "call") := by
    rw [lc_put]
    decide
  have hu : binomU (Real.log 2) ((2:ℝ) / ((2:ℕ) : ℝ)) = 2 := by
    norm_num [binomU, Real.sqrt_one, Real.exp_log]
  have hd : binomD (Real.log 2) ((2:ℝ) / ((2:ℕ) : ℝ)) = 1 / 2 := by
    rw [binomD, hu]
  have ha : binomA (Real.log 4) 0 ((2:ℝ) / ((2:ℕ) : ℝ)) = 4 := by
    norm_num [binomA, Real.exp_log]
  have hp : binomP (Real.log 2) (Real.log 4) 0 ((2:ℝ) / ((2:ℕ) : ℝ)) = 7 / 3 := by
    rw [binomP, ha, hd, hu]
    norm_num
  have hdf : binomDf (Real.log 4) ((2:ℝ) / ((2:ℕ) : ℝ)) = 1 / 4 := by
    have h4 : Real.exp (Real.log 4) = 4 := Real.exp_log (by norm_num)
    rw [binomDf]
    norm_num [Real.exp_neg, h4]
  simp only [binomial_option_price, if_neg hlog2, hu, hd, hp, hdf,
    hput, if_false]
  rw [backwardLoop_two, backwardLoop_two]
  norm_num [binomCombine, hput, max_def]

/-- Claim C8 (amended): whenever the lattice's risk-neutral probability
`p = (a - d)/(u - d)` (at the internally normalized volatility) lies in
`[0, 1]`, the American put prices at or above the European put with the
same parameters: the early-exercise max never decreases the value. -/
theorem binomial_american_put_ge_european (S K T r sigma q : ℝ)
    (steps : ℕ)
    (hp0 : 0 ≤ binomP (if sigma > 1 then sigma / 100 else sigma) r q
      (T / (steps : ℝ)))
    (hp1 : binomP (if sigma > 1 then sigma / 100 else sigma) r q
      (T / (steps : ℝ)) ≤ 1) :
    binomial_option_price S K T r sigma ("put") steps false q ≤
    binomial_option_price S K T r sigma ("put") steps true q := by
  simp only [binomial_option_price, binomDf]
  exact backward_am_ge_eu _ _ _ _ _ _ _
    (le_of_lt (Real.exp_pos _)) hp0 hp1 steps _ _ (fun k _ => le_refl _)

lemma binomP_log_two_third :
    binomP (if Real.log 2 > 1 then Real.log 2 / 100 else Real.log 2) 0 0
      ((1:ℝ) / ((1:ℕ) : ℝ)) = 1 / 3 := by
  have hlog2 : ¬ ((Real.log 2) > 1) := not_lt.mpr (le_of_lt log_two_lt_one)
  rw [if_neg hlog2]
  have hu : binomU (Real.log 2) ((1:ℝ) / ((1:ℕ) : ℝ)) = 2 := by
    norm_num [binomU, Real.sqrt_one, Real.exp_log]
  have hd : binomD (Real.log 2) ((1:ℝ) / ((1:ℕ) : ℝ)) = 1 / 2 := by
    rw [binomD, hu]
  have ha : binomA 0 0 ((1:ℝ) / ((1:ℕ) : ℝ)) = 1 := by
    norm_num [binomA, Real.exp_zero]
  rw [binomP, ha, hd, hu]
  norm_num

/-- Claim C8 (witness): the amended statement at the one-step tree with
`S = K = T = 1, r = q = 0, σ = log 2` where `p = 1/3 ∈ [0, 1]`. -/
theorem binomial_american_put_ge_european_witness :
    0 ≤ binomP (if Real.log 2 > 1 then Real.log 2 / 100 else Real.log 2) 0 0
      ((1:ℝ) / ((1:ℕ) : ℝ)) ∧
    binomP (if Real.log 2 > 1 then Real.log 2 / 100 else Real.log 2) 0 0
      ((1:ℝ) / ((1:ℕ) : ℝ)) ≤ 1 ∧
    binomial_option_price 1 1 1 0 (Real.log 2) ("put") 1 false 0 ≤
      binomial_option_price 1 1 1 0 (Real.log 2) ("put") 1 true 0 :=
  ⟨by rw [binomP_log_two_third]; norm_num,
    by rw [binomP_log_two_third]; norm_num,
    binomial_american_put_ge_european 1 1 1 0 (Real.log 2) 0 1
      (by rw [binomP_log_two_third]; norm_num)
      (by rw [binomP_log_two_third]; norm_num)⟩

/- ------------------------------------------------------------------ -/
/- Claim C4                                                            -/
/- ------------------------------------------------------------------ -/

/-- Claim C4: the comparator's sanity fallback.  For each leg separately,
the jump price in the result is the analytic price exactly when
`|jump - analytic| > analytic` or the jump price is non-finite (and the
jump price unchanged otherwise); the number of warnings is exactly the
number of triggered legs (one per leg); the lattice prices always pass
through unchanged; and on the spec's concrete scenario
`analytic = 5, jump = 12` the result carries jump price `5` with exactly
one warning entry. -/
theorem comparator_sanity_fallback (aC aP jC jP lC lP : ℝ) (fC fP : Bool) :
    ((compareModels aC aP lC lP jC jP fC fP).jumpCall =
      if |jC - aC| > aC ∨ fC = false then aC else jC) ∧
    ((compareModels aC aP lC lP jC jP fC fP).jumpPut =
      if |jP - aP| > aP ∨ fP = false then aP else jP) ∧
    ((compareModels aC aP lC lP jC jP fC fP).warnings.length =
      (if |jC - aC| > aC ∨ fC = false then 1 else 0) +
        (if |jP - aP| > aP ∨ fP = false then 1 else 0)) ∧
    ((compareModels aC aP lC lP jC jP fC fP).latticeCall = lC) ∧
    ((compareModels aC aP lC lP jC jP fC fP).latticePut = lP) ∧
    ((applyBatesFallback ("call") 5 12 true []).1 = 5) ∧
    ((applyBatesFallback ("call") 5 12 true []).2.length = 1) := by
  have hconc : (|(12:ℝ) - 5| > 5 ∨ (true = false)) := by
    left
    rw [show |(12:ℝ) - 5| = 7 by norm_num]
    norm_num
  refine ⟨?_, ?_, ?_, ?_, ?_, ?_, ?_⟩
  · by_cases h1 : |jC - aC| > aC ∨ fC = false <;>
      simp [compareModels, applyBatesFallback, h1]
  · by_cases h1 : |jC - aC| > aC ∨ fC = false <;>
      by_cases h2 : |jP - aP| > aP ∨ fP = false <;>
      simp [compareModels, applyBatesFallback, h1, h2]
  · by_cases h1 : |jC - aC| > aC ∨ fC = false <;>
      by_cases h2 : |jP - aP| > aP ∨ fP = false <;>
      simp [compareModels, applyBatesFallback, h1, h2]
  · simp [compareModels]
  · simp [compareModels]
  · have habs : |(12:ℝ) - 5| = (7:ℝ) := by norm_num
    norm_num [applyBatesFallback, habs]
  · have habs : |(12:ℝ) - 5| = (7:ℝ) := by norm_num
    norm_num [applyBatesFallback, habs]

/- ------------------------------------------------------------------ -/
/- Claim C10                                                           -/
/- ------------------------------------------------------------------ -/

/-- Claim C10: the fallback warning is formatted after the jump-price
variable has been overwritten.  Whenever the fallback triggers, the
appended warning's interpolated price is the analytic (fallback) price
`a` — and when the divergent jump price differed from it, the warning
never reports that divergent price. -/
theorem fallback_warning_reports_overwritten_price (leg : String)
    (a j : ℝ) (f : Bool) (ws : List BatesWarning)
    (h : |j - a| > a ∨ f = false) (hne : j ≠ a) :
    (applyBatesFallback leg a j f ws).2 = ws ++ [⟨leg, a⟩] ∧
    (BatesWarning.mk leg a).reportedPrice ≠ j :=
  ⟨by simp only [applyBatesFallback, if_pos h], Ne.symm hne⟩

/-- Claim C10 (witness): the triggering scenario `analytic = 5`,
`jump = 12` on the call leg. -/
theorem fallback_warning_reports_overwritten_price_witness :
    ((|(12:ℝ) - 5| > 5 ∨ (true = false)) ∧ (12:ℝ) ≠ 5) ∧
    (applyBatesFallback ("call") 5 12 true []).2 = [] ++ [⟨("call"), 5⟩] ∧
    (BatesWarning.mk ("call") 5).reportedPrice ≠ (12:ℝ) := by
  have h : (|(12:ℝ) - 5| > 5 ∨ (true = false)) := by
    left
    rw [show |(12:ℝ) - 5| = 7 by norm_num]
    norm_num
  have hne : (12:ℝ) ≠ 5 := by norm_num
  exact ⟨⟨h, hne⟩,
    fallback_warning_reports_overwritten_price ("call") 5 12 true [] h hne⟩

/- ------------------------------------------------------------------ -/
/- Claim C9                                                            -/
/- ------------------------------------------------------------------ -/

lemma binomCombine_kind_congr (S K u d p df : ℝ) (ot1 ot2 : String)
    (am : Bool) (i j : ℕ) (x y : ℝ)
    (h : (lowercase ot1 = "call") ↔ (lowercase ot2 = "call")) :
    binomCombine S K u d p df ot1 am i j x y =
    binomCombine S K u d p df ot2 am i j x y := by
  by_cases hc : lowercase ot1 = "call"
  · simp [binomCombine, hc, h.mp hc]
  · have hc2 : ¬ lowercase ot2 = "call" := fun hx => hc (h.mpr hx)
    simp [binomCombine, hc, hc2]

lemma innerLoop_kind_congr (S K u d p df : ℝ) (ot1 ot2 : String)
    (am : Bool) (i : ℕ)
    (h : (lowercase ot1 = "call") ↔ (lowercase ot2 = "call")) :
    ∀ (m : ℕ) (V : ℕ → ℝ),
    innerLoop S K u d p df ot1 am i m V =
    innerLoop S K u d p df ot2 am i m V := by
  intro m
  induction m with
  | zero => intro V; rfl
  | succ m ih =>
    intro V
    simp only [innerLoop, ih]
    exact congrArg (Function.update (innerLoop S K u d p df ot2 am i m V) m)
      (binomCombine_kind_congr S K u d p df ot1 ot2 am i m _ _ h)

lemma backwardLoop_kind_congr (S K u d p df : ℝ) (ot1 ot2 : String)
    (am : Bool)
    (h : (lowercase ot1 = "call") ↔ (lowercase ot2 = "call")) :
    ∀ (n : ℕ) (V : ℕ → ℝ),
    backwardLoop S K u d p df ot1 am n V =
    backwardLoop S K u d p df ot2 am n V := by
  intro n
  induction n with
  | zero => intro V; rfl
  | succ i ih =>
    intro V
    simp only [backwardLoop]
    rw [innerLoop_kind_congr S K u d p df ot1 ot2 am i h, ih]

lemma bsm_kind_congr (cdf : ℝ → ℝ) (S K T r sigma : ℝ) (ot1 ot2 : String)
    (h : (lowercase ot1 = "call") ↔ (lowercase ot2 = "call")) :
    black_scholes_merton cdf S K T r sigma ot1 =
    black_scholes_merton cdf S K T r sigma ot2 := by
  by_cases hc : lowercase ot1 = "call"
  · simp [black_scholes_merton, hc, h.mp hc]
  · have hc2 : ¬ lowercase ot2 = "call" := fun hx => hc (h.mpr hx)
    simp [black_scholes_merton, hc, hc2]

lemma binomial_kind_congr (S K T r sigma q : ℝ) (steps : ℕ) (am : Bool)
    (ot1 ot2 : String)
    (h : (lowercase ot1 = "call") ↔ (lowercase ot2 = "call")) :
    binomial_option_price S K T r sigma ot1 steps am q =
    binomial_option_price S K T r sigma ot2 steps am q := by
  simp only [binomial_option_price]
  rw [backwardLoop_kind_congr _ _ _ _ _ _ ot1 ot2 am h steps]
  by_cases hc : lowercase ot1 = "call"
  · simp [hc, h.mp hc]
  · have hc2 : ¬ lowercase ot2 = "call" := fun hx => hc (h.mpr hx)
    simp [hc, hc2]

lemma bates_kind_congr (cdf : ℝ → ℝ) (S K T r sigma lam mu_j sigma_j : ℝ)
    (ot1 ot2 : String)
    (h : (lowercase ot1 = "call") ↔ (lowercase ot2 = "call")) :
    bates_simplified cdf S K T r sigma lam mu_j sigma_j ot1 =
    bates_simplified cdf S K T r sigma lam mu_j sigma_j ot2 := by
  simp only [bates_simplified]
  apply Finset.sum_congr rfl
  intro n _
  by_cases hc : lowercase ot1 = "call"
  · simp [batesMixtureTerm, hc, h.mp hc]
  · have hc2 : ¬ lowercase ot2 = "call" := fun hx => hc (h.mpr hx)
    simp [batesMixtureTerm, hc, hc2]

/-- Claim C9: every pricer dispatches the option kind by the single
case-insensitive comparison of `option_type` against `"call"`: any string
whose lowercasing is `"call"` prices as the call formula, and every other
string — `"put"`, the empty string, or any typo — silently prices as the
put formula; no pricer rejects an unknown kind. -/
theorem pricers_dispatch_case_insensitive (cdf : ℝ → ℝ)
    (S K T r sigma lam mu_j sigma_j q : ℝ) (steps : ℕ) (am : Bool)
    (ot : String) :
    (black_scholes_merton cdf S K T r sigma ot =
      if lowercase ot = "call" then
        black_scholes_merton cdf S K T r sigma ("call")
      else black_scholes_merton cdf S K T r sigma ("put")) ∧
    (binomial_option_price S K T r sigma ot steps am q =
      if lowercase ot = "call" then
        binomial_option_price S K T r sigma ("call") steps am q
      else binomial_option_price S K T r sigma ("put") steps am q) ∧
    (bates_simplified cdf S K T r sigma lam mu_j sigma_j ot =
      if lowercase ot = "call" then
        bates_simplified cdf S K T r sigma lam mu_j sigma_j ("call")
      else bates_simplified cdf S K T r sigma lam mu_j sigma_j ("put")) := by
  by_cases hc : lowercase ot = "call"
  · have hiff : (lowercase ot = "call") ↔ (lowercase ("call") = "call") := by
      rw [hc, lc_call]
    rw [if_pos hc, if_pos hc, if_pos hc]
    exact ⟨bsm_kind_congr cdf S K T r sigma ot ("call") hiff,
      binomial_kind_congr S K T r sigma q steps am ot ("call") hiff,
      bates_kind_congr cdf S K T r sigma lam mu_j sigma_j ot ("call") hiff⟩
  · have hput : ¬ (lowercase ("put") = "call") := by
      rw [lc_put]
      decide
    have hiff : (lowercase ot = "call") ↔ (lowercase ("put") = "call") :=
      iff_of_false hc hput
    rw [if_neg hc, if_neg hc, if_neg hc]
    exact ⟨bsm_kind_congr cdf S K T r sigma ot ("put") hiff,
      binomial_kind_congr S K T r sigma q steps am ot ("put") hiff,
      bates_kind_congr cdf S K T r sigma lam mu_j sigma_j ot ("put") hiff⟩

end Stockr
